import Mathlib

/-!
Shallow embedding of `src/markov.py`: a variable-order Markov frequency model.

Python dictionaries preserve insertion order, and `Counter`/`defaultdict`
are dict subclasses, so both the frequency table and each successor counter
are modelled as insertion-ordered association lists.  Randomness
(`random.choice`, `random.choices`) is injected as an index argument; an
out-of-range pick on an empty sequence (Python's `IndexError`) is modelled
by `Option`/`Except` failure results.
-/

namespace Markov

variable {α : Type} [DecidableEq α]

/-- A Python `collections.Counter`: an insertion-ordered map from keys to
counts, as an association list (first component is the key). -/
abbrev Counter (α : Type) := List (α × Nat)

/-- `c[x]` on a `Counter`: 0 when the key is absent. -/
def counterGet : Counter α → α → Nat
  | [], _ => 0
  | p :: rest, x => if p.1 = x then p.2 else counterGet rest x

/-- `c[x] += 1` on a `Counter`: bump the count in place if the key is
present (its position is unchanged), otherwise append the key with count 1
at the end (Python dicts append new keys in insertion order). -/
def counterIncr : Counter α → α → Counter α
  | [], x => [(x, 1)]
  | p :: rest, x => if p.1 = x then (p.1, p.2 + 1) :: rest else p :: counterIncr rest x

/-- `sum(c.values())`: the total of all counts in a counter. -/
def counterTotal (c : Counter α) : Nat := (c.map Prod.snd).sum

/-- The `frequencies` table: `defaultdict(Counter)`, an insertion-ordered
map from context (tuple of symbols) to successor counter. -/
abbrev Freq (α : Type) := List (List α × Counter α)

/-- Reading `frequencies[ctx]` without defaultdict insertion: the empty
counter when the context is absent. -/
def freqLookup : Freq α → List α → Counter α
  | [], _ => []
  | p :: rest, ctx => if p.1 = ctx then p.2 else freqLookup rest ctx

/-- `frequencies[ctx][s]` as a pure read. -/
def freqGet (f : Freq α) (ctx : List α) (s : α) : Nat := counterGet (freqLookup f ctx) s

/-- `frequencies[ctx][s] += 1` on the `defaultdict(Counter)`: insert an
empty counter for a missing context (appended in insertion order), then
bump the successor count. -/
def freqIncr : Freq α → List α → α → Freq α
  | [], ctx, s => [(ctx, counterIncr [] s)]
  | p :: rest, ctx, s =>
      if p.1 = ctx then (p.1, counterIncr p.2 s) :: rest else p :: freqIncr rest ctx s

/-- `count = frequencies[ctx]` on the `defaultdict`: returns the counter
and the table after the lookup.  A missing context is INSERTED with an
empty counter (the `defaultdict.__missing__` side effect), appended at the
end in insertion order. -/
def freqGetDefault : Freq α → List α → Counter α × Freq α
  | [], ctx => ([], [(ctx, [])])
  | p :: rest, ctx =>
      if p.1 = ctx then (p.2, p :: rest)
      else
        let r := freqGetDefault rest ctx
        (r.1, p :: r.2)

/-- `group_by_n(iterator, n)`: all length-`n` sliding windows of the
sequence, stride 1 (via `tee`, per-copy skipping and `zip`).  For `n = 0`
Python's `zip()` of zero iterators yields nothing. -/
def group_by_n (l : List α) (n : Nat) : List (List α) :=
  if n = 0 then []
  else (List.range (l.length + 1 - n)).map (fun i => (l.drop i).take n)

/-- One iteration of the loop body of `calculate_frequencies`:
`(*pre, next_word) = window; frequencies[tuple(pre)][next_word] += 1`.
The empty-window case cannot occur (windows have length `k+1 ≥ 1`). -/
def calcStep (f : Freq α) (w : List α) : Freq α :=
  match w.getLast? with
  | none => f
  | some s => freqIncr f w.dropLast s

/-- `calculate_frequencies(history, length_of_history)`: slide a window of
size `k+1` over the history; the first `k` elements are the context, the
last is the successor. -/
def calculate_frequencies (history : List α) (length_of_history : Nat) : Freq α :=
  (group_by_n history (length_of_history + 1)).foldl calcStep []

/-- Python slicing `l[-k:]`: the last `k` elements when `k ≥ 1`, but the
WHOLE list when `k = 0` (since `l[-0:] = l[0:] = l`). -/
def pySliceLast (l : List α) (k : Nat) : List α :=
  if k = 0 then l else l.drop (l.length - k)

/-- The trailing `k` elements of a list (the "last k emitted symbols"). -/
def lastN (l : List α) (k : Nat) : List α := l.drop (l.length - k)

/-- `random.choice(l)` with the random draw injected as an index `i`:
returns the element at `i % len(l)`; on an empty sequence Python raises
`IndexError`, modelled as `none`. -/
def pyChoice (l : List α) (i : Nat) : Option α := l.get? (i % l.length)

/-- One comparison step of Python's `max(count, key=lambda x: count[x])`
over the counter's keys in insertion order: the running best is replaced
only by a STRICTLY greater count, so the first key attaining the maximum
wins. -/
def pyMaxStep (best q : α × Nat) : α × Nat := if q.2 > best.2 then q else best

/-- `predict(frequencies, recently_seen)` with the fallback's random draw
injected as `ridx`.  Returns the predicted symbol (`none` models the
uncaught `IndexError` of `random.choice` on an empty window) together with
the table after the call: the `defaultdict` lookup inserts an empty
counter for an absent context.  `max(count, key=lambda x: count[x])` on a
non-empty counter returns the first key attaining the maximal count, in
insertion order; on an empty counter it raises `ValueError`, which the
code catches and answers with `random.choice(recently_seen)`. -/
def predict (frequencies : Freq α) (recently_seen : List α) (ridx : Nat) :
    Option α × Freq α :=
  let r := freqGetDefault frequencies recently_seen
  match r.1 with
  | [] => (pyChoice recently_seen ridx, r.2)
  | p :: rest => (some (rest.foldl pyMaxStep p).1, r.2)

/-- `predict_from_history(history, length_of_history)`: build the table
from the history, then predict from the context `history[-k:]`. -/
def predict_from_history (history : List α) (length_of_history : Nat) (ridx : Nat) :
    Option α × Freq α :=
  predict (calculate_frequencies history length_of_history)
    (pySliceLast history length_of_history) ridx

/-- `max` over a non-empty counter's keys with `key=lambda x: count[x]`:
the first key attaining the maximal count.  (`predict` inlines this fold;
this wrapper also covers the empty case for stating lemmas.) -/
def counterArgmax : Counter α → Option α
  | [] => none
  | p :: rest => some (rest.foldl pyMaxStep p).1

/-- `deque(maxlen=k)` append: keep only the trailing `k` elements. -/
def dequePush (k : Nat) (r : List α) (x : α) : List α :=
  (r ++ [x]).drop (r.length + 1 - k)

/-- Appending a whole sequence of symbols to the deque, one at a time. -/
def dequePushAll (k : Nat) (r : List α) (xs : List α) : List α :=
  xs.foldl (dequePush k) r

/-- `random.choice(known_subsequences)`: pick a seed context by injected
index. -/
def seedPick (known : List (List α)) (idx : Nat) : Option (List α) :=
  known.get? (idx % known.length)

/-- The failure surfaced by `generate_random_stream_from_frequencies` on
its first pull: `random.choice` on the empty `known_subsequences` list
raises `IndexError` (the spec's `EmptyModelError`: the model has no
context to seed from). -/
inductive GenError : Type
  | emptyModel : GenError
deriving DecidableEq

/-- The mutable state of one generation stream:  the (mutated-in-place)
`frequencies` table, the `known_subsequences` snapshot taken at stream
start, the `recent` deque, the order `k` (= `length_of_history`, the deque
capacity), the optional `mixup_period`, and the loop counter `i` — which
the code initialises to 0 and NEVER increments. -/
structure GenState (α : Type) where
  freq : Freq α
  known : List (List α)
  recent : List α
  k : Nat
  mixup : Option Nat
  i : Nat

/-- What one iteration of the generator's `while True` loop produced, in
order: `preSample` are symbols emitted by the mixup re-seed branch (run
BEFORE the weighted sample, which the code then still executes on the
stale `options`/`weights`); `sampleCtx` is the context whose successor
counter the weighted sample drew from, when a sample happened;  `sampled`
is the sampled symbol (empty when `random.choices` raised `IndexError`);
`postSample` are symbols emitted by the recovery re-seed in the `except`
branch.  `state` is the stream state after the iteration. -/
structure TickResult (α : Type) where
  preSample : List α
  sampleCtx : Option (List α)
  sampled : List α
  postSample : List α
  state : GenState α

/-- All symbols one loop iteration emitted, in emission order. -/
def TickResult.out (t : TickResult α) : List α :=
  t.preSample ++ t.sampled ++ t.postSample

/-- First pull of `generate_random_stream_from_frequencies(frequencies,
length_of_history, mixup_period)`: snapshot `known_subsequences`, then the
initial seed emits the symbols of a randomly chosen known context and
pushes each into the fresh `recent` deque.  On a table with no contexts,
`random.choice([])` raises before anything is emitted. -/
def genStart (freq : Freq α) (k : Nat) (mixup : Option Nat) (seedIdx : Nat) :
    Except GenError (List α × GenState α) :=
  match seedPick (freq.map Prod.fst) seedIdx with
  | none => Except.error GenError.emptyModel
  | some ctx =>
      Except.ok (ctx, ⟨freq, freq.map Prod.fst, dequePushAll k [] ctx, k, mixup, 0⟩)

/-- `if mixup_period and i % mixup_period == 0`: Python truthiness makes
both `None` and `0` falsy.  The loop counter `i` is initialised to 0 and
NEVER incremented by the code, so once a stream is running this condition
is decided by `i = 0` forever. -/
def mixupFires (mixup : Option Nat) (i : Nat) : Bool :=
  match mixup with
  | none => false
  | some p => decide (p ≠ 0 ∧ i % p = 0)

/-- One iteration of the generator's `while True` loop, random draws
injected as indices.  Faithful to the code:  `count` is read from the
`defaultdict` (inserting an empty counter for an unseen context);
`options`/`weights` are computed BEFORE the mixup check; the mixup branch
falls through into the `try` block, so the weighted sample still runs on
the pre-mixup `options`.  Every recorded count is at least 1, so
`random.choices(options, weights)` can return exactly the members of
`options`; the draw is modelled as `pyChoice options sIdx`.  An empty
`options` makes `random.choices` raise `IndexError` (empty
`cum_weights`), caught by the recovery re-seed.  A `none` result models an
uncaught `IndexError` from `random.choice` on an empty `known` list. -/
def genTick (st : GenState α) (mixIdx sIdx recIdx : Nat) : Option (TickResult α) :=
  match (if mixupFires st.mixup st.i then
           match seedPick st.known mixIdx with
           | none => none
           | some ctx => some (ctx, dequePushAll st.k st.recent ctx)
         else some ([], st.recent) : Option (List α × List α)) with
  | none => none
  | some pr =>
      match pyChoice ((freqGetDefault st.freq st.recent).1.map Prod.fst) sIdx with
      | some s =>
          some ⟨pr.1, some st.recent, [s], [],
            ⟨(freqGetDefault st.freq st.recent).2, st.known, dequePush st.k pr.2 s,
              st.k, st.mixup, st.i⟩⟩
      | none =>
          match seedPick st.known recIdx with
          | none => none
          | some ctx =>
              some ⟨pr.1, none, [], ctx,
                ⟨(freqGetDefault st.freq st.recent).2, st.known,
                  dequePushAll st.k pr.2 ctx, st.k, st.mixup, st.i⟩⟩

/-! ### Lemmas about counters and the frequency table -/

theorem counterGet_incr (c : Counter α) (x y : α) :
    counterGet (counterIncr c x) y = counterGet c y + (if y = x then 1 else 0) := by
  induction c with
  | nil =>
      simp only [counterIncr, counterGet]
      by_cases h : y = x
      · subst h; simp
      · simp [h, Ne.symm h]
  | cons p rest ih =>
      simp only [counterIncr]
      by_cases hpx : p.1 = x
      · simp only [if_pos hpx]
        by_cases hpy : p.1 = y
        · have hyx : y = x := hpy ▸ hpx
          simp [counterGet, hpy, hyx]
        · have hyx : ¬y = x := fun h => hpy (hpx.trans h.symm ▸ rfl)
          simp [counterGet, hpy, hyx]
      · simp only [if_neg hpx]
        by_cases hpy : p.1 = y
        · have hyx : ¬y = x := fun h => hpx (hpy.trans h)
          simp [counterGet, hpy, hyx]
        · simp [counterGet, hpy, ih]

theorem counterTotal_incr (c : Counter α) (x : α) :
    counterTotal (counterIncr c x) = counterTotal c + 1 := by
  induction c with
  | nil => simp [counterIncr, counterTotal]
  | cons p rest ih =>
      simp only [counterIncr]
      by_cases hpx : p.1 = x
      · simp [hpx, counterTotal]; omega
      · simp only [if_neg hpx]
        simp [counterTotal] at ih ⊢
        omega

theorem freqLookup_incr (f : Freq α) (ctx : List α) (s : α) (c : List α) :
    freqLookup (freqIncr f ctx s) c =
      if c = ctx then counterIncr (freqLookup f ctx) s else freqLookup f c := by
  induction f with
  | nil =>
      simp only [freqIncr, freqLookup]
      by_cases h : c = ctx
      · subst h; simp
      · simp [h, Ne.symm h]
  | cons p rest ih =>
      simp only [freqIncr]
      by_cases hpc : p.1 = ctx
      · simp only [if_pos hpc]
        by_cases hc : c = ctx
        · subst hc; simp [freqLookup, hpc]
        · have : ¬p.1 = c := fun h => hc (h.symm.trans hpc)
          simp [freqLookup, this, hc]
      · simp only [if_neg hpc]
        by_cases hc : c = ctx
        · subst hc
          have : ¬p.1 = c := hpc
          simp [freqLookup, this, ih]
        · by_cases hp1 : p.1 = c
          · simp [freqLookup, hp1, hc]
          · simp [freqLookup, hp1, hc, ih]

theorem freqGet_incr (f : Freq α) (c0 : List α) (s0 : α) (c : List α) (s : α) :
    freqGet (freqIncr f c0 s0) c s =
      freqGet f c s + (if c = c0 ∧ s = s0 then 1 else 0) := by
  unfold freqGet
  rw [freqLookup_incr]
  by_cases hc : c = c0
  · subst hc
    rw [if_pos rfl, counterGet_incr]
    by_cases hs : s = s0
    · simp [hs]
    · simp [hs]
  · simp [hc]

theorem counterTotal_freqIncr (f : Freq α) (c0 : List α) (s0 : α) (c : List α) :
    counterTotal (freqLookup (freqIncr f c0 s0) c) =
      counterTotal (freqLookup f c) + (if c = c0 then 1 else 0) := by
  rw [freqLookup_incr]
  by_cases hc : c = c0
  · subst hc; simp [counterTotal_incr]
  · simp [hc]

theorem foldl_calcStep_get (ws : List (List α)) (f0 : Freq α) (c : List α) (s : α) :
    freqGet (ws.foldl calcStep f0) c s =
      freqGet f0 c s +
        ws.countP (fun w => decide (w.dropLast = c ∧ w.getLast? = some s)) := by
  induction ws generalizing f0 with
  | nil => simp
  | cons w ws ih =>
      rw [List.foldl_cons, ih, List.countP_cons]
      have hstep : freqGet (calcStep f0 w) c s =
          freqGet f0 c s +
            (if (w.dropLast = c ∧ w.getLast? = some s) then 1 else 0) := by
        unfold calcStep
        cases hw : w.getLast? with
        | none => simp [hw]
        | some s0 =>
            rw [freqGet_incr]
            by_cases h1 : w.dropLast = c
            · by_cases h2 : s = s0
              · subst h2; simp [h1]
              · have hs0 : ¬s0 = s := fun h => h2 h.symm
                have hns : ¬(c = w.dropLast ∧ s = s0) := fun h => h2 h.2
                simp [h1, hs0, hns, h2]
            · have hnc : ¬c = w.dropLast := fun h => h1 h.symm
              simp [h1, hnc]
      rw [hstep]
      by_cases hp : w.dropLast = c ∧ w.getLast? = some s <;> simp [hp] <;> omega

theorem foldl_calcStep_total (ws : List (List α)) (f0 : Freq α) (c : List α) :
    counterTotal (freqLookup (ws.foldl calcStep f0) c) =
      counterTotal (freqLookup f0 c) +
        ws.countP (fun w => decide (w.dropLast = c ∧ w ≠ [])) := by
  induction ws generalizing f0 with
  | nil => simp
  | cons w ws ih =>
      rw [List.foldl_cons, ih, List.countP_cons]
      have hstep : counterTotal (freqLookup (calcStep f0 w) c) =
          counterTotal (freqLookup f0 c) +
            (if (w.dropLast = c ∧ w ≠ []) then 1 else 0) := by
        unfold calcStep
        cases hw : w.getLast? with
        | none =>
            have : w = [] := List.getLast?_eq_none_iff.mp hw
            simp [this]
        | some s0 =>
            have hne : w ≠ [] := by
              intro h; subst h; simp at hw
            rw [counterTotal_freqIncr]
            by_cases h1 : w.dropLast = c
            · simp [h1, hne]
            · have hnc : ¬c = w.dropLast := fun h => h1 h.symm
              simp [h1, hnc]
      rw [hstep]
      by_cases hp : w.dropLast = c ∧ w ≠ [] <;> simp [hp] <;> omega

/-! ### Lemmas about the defaultdict lookup and the predictor -/

theorem freqGetDefault_fst (f : Freq α) (ctx : List α) :
    (freqGetDefault f ctx).1 = freqLookup f ctx := by
  induction f with
  | nil => rfl
  | cons p rest ih =>
      simp only [freqGetDefault, freqLookup]
      by_cases h : p.1 = ctx <;> simp [h, ih]

theorem freqGet_getDefault_snd (f : Freq α) (ctx : List α) (c : List α) (s : α) :
    freqGet (freqGetDefault f ctx).2 c s = freqGet f c s := by
  induction f with
  | nil =>
      simp only [freqGetDefault, freqGet, freqLookup]
      by_cases h : ctx = c
      · subst h; simp [counterGet]
      · simp [h]
  | cons p rest ih =>
      by_cases h : p.1 = ctx
      · simp [freqGetDefault, h]
      · have h2 : (freqGetDefault (p :: rest) ctx).2 = p :: (freqGetDefault rest ctx).2 := by
          simp [freqGetDefault, h]
        rw [h2]
        unfold freqGet freqLookup
        by_cases hc : p.1 = c
        · simp [hc]
        · simp only [if_neg hc]
          exact ih

theorem predict_fst (f : Freq α) (rs : List α) (ridx : Nat) :
    (predict f rs ridx).1 =
      match freqLookup f rs with
      | [] => pyChoice rs ridx
      | p :: rest => some ((rest.foldl pyMaxStep p).1) := by
  rcases h : (freqGetDefault f rs).1 with _ | ⟨p, rest⟩ <;>
    rw [← freqGetDefault_fst, h] <;> simp [predict, h]

theorem predict_snd (f : Freq α) (rs : List α) (ridx : Nat) :
    (predict f rs ridx).2 = (freqGetDefault f rs).2 := by
  rcases h : (freqGetDefault f rs).1 with _ | ⟨p, rest⟩ <;> simp [predict, h]

theorem pyMaxFold_ge (rest : Counter α) (p : α × Nat) :
    p.2 ≤ (rest.foldl pyMaxStep p).2 := by
  induction rest generalizing p with
  | nil => simp
  | cons r rest ih =>
      simp only [List.foldl_cons, pyMaxStep]
      by_cases h : r.2 > p.2
      · exact le_trans (le_of_lt h) (by simpa [h] using ih r)
      · simpa [h] using ih p

theorem pyMaxFold_first (rest : Counter α) (p : α × Nat) :
    ∃ pre post,
      p :: rest = pre ++ (rest.foldl pyMaxStep p) :: post ∧
      (∀ r ∈ pre, r.2 < (rest.foldl pyMaxStep p).2) ∧
      (∀ r ∈ post, r.2 ≤ (rest.foldl pyMaxStep p).2) := by
  induction rest generalizing p with
  | nil => exact ⟨[], [], rfl, by simp, by simp⟩
  | cons r rest ih =>
      simp only [List.foldl_cons]
      by_cases h : r.2 > p.2
      · have hstep : pyMaxStep p r = r := by simp [pyMaxStep, h]
        rw [hstep]
        obtain ⟨pre, post, heq, hpre, hpost⟩ := ih r
        refine ⟨p :: pre, post, ?_, ?_, hpost⟩
        · rw [List.cons_append, ← heq]
        · intro x hx
          rcases List.mem_cons.mp hx with hx | hx
          · subst hx
            exact lt_of_lt_of_le h (pyMaxFold_ge rest r)
          · exact hpre x hx
      · have hstep : pyMaxStep p r = p := by simp [pyMaxStep, h]
        rw [hstep]
        obtain ⟨pre, post, heq, hpre, hpost⟩ := ih p
        cases pre with
        | nil =>
            simp only [List.nil_append] at heq
            have hQ : rest.foldl pyMaxStep p = p := (List.cons.injEq _ _ _ _).mp heq |>.1.symm
            have hpost2 : post = rest := (List.cons.injEq _ _ _ _).mp heq |>.2.symm
            refine ⟨[], r :: rest, ?_, by simp, ?_⟩
            · simp [hQ]
            · intro x hx
              rcases List.mem_cons.mp hx with hx | hx
              · subst hx
                rw [hQ]
                omega
              · rw [← hpost2] at hx
                exact hpost x hx
        | cons pp pre2 =>
            simp only [List.cons_append] at heq
            have hpp : pp = p := ((List.cons.injEq _ _ _ _).mp heq).1.symm
            have hrest : rest = pre2 ++ (rest.foldl pyMaxStep p) :: post :=
              ((List.cons.injEq _ _ _ _).mp heq).2
            have hpQ : p.2 < (rest.foldl pyMaxStep p).2 := by
              have := hpre pp (by simp)
              rwa [hpp] at this
            refine ⟨p :: r :: pre2, post, ?_, ?_, hpost⟩
            · have hcg := congrArg (fun l => p :: r :: l) hrest
              simpa using hcg
            · intro x hx
              rcases List.mem_cons.mp hx with hx | hx
              · subst hx; exact hpQ
              · rcases List.mem_cons.mp hx with hx | hx
                · subst hx; omega
                · exact hpre x (by simp [hx])

theorem pyChoice_mem (l : List α) (i : Nat) (h : l ≠ []) :
    ∃ s, pyChoice l i = some s ∧ s ∈ l := by
  have hlen : 0 < l.length := List.length_pos.mpr h
  have hlt : i % l.length < l.length := Nat.mod_lt _ hlen
  rw [pyChoice, List.get?_eq_get hlt]
  exact ⟨l.get ⟨i % l.length, hlt⟩, rfl, List.get_mem _ _ hlt⟩

theorem pySliceLast_ne_nil (l : List α) (k : Nat) (h : l ≠ []) :
    pySliceLast l k ≠ [] := by
  have hlen : 0 < l.length := List.length_pos.mpr h
  unfold pySliceLast
  by_cases hk : k = 0
  · simpa [hk] using h
  · rw [if_neg hk, ← List.length_pos, List.length_drop]
    omega

/-! ### Sliding-window translation lemmas -/

theorem take_succ_dropLast (l : List α) (n : Nat) (h : n < l.length) :
    (l.take (n + 1)).dropLast = l.take n := by
  rw [List.dropLast_eq_take, List.length_take, List.take_take]
  congr 1
  omega

theorem take_succ_getLast? (l : List α) (n : Nat) (h : n < l.length) :
    (l.take (n + 1)).getLast? = l[n]? := by
  rw [List.getLast?_eq_getElem?, List.length_take]
  have hmin : min (n + 1) l.length - 1 = n := by omega
  rw [hmin, List.getElem?_take]
  simp

theorem drop_head?_eq (l : List α) (n : Nat) : (l.drop n).head? = l[n]? := by
  rw [List.head?_eq_getElem?, List.getElem?_drop]
  simp

/-! ### Lemmas about the deque and the generator -/

theorem lastN_of_length_le (l : List α) (k : Nat) (h : l.length ≤ k) :
    lastN l k = l := by
  simp [lastN, Nat.sub_eq_zero_of_le h]

theorem lastN_length_le (l : List α) (k : Nat) : (lastN l k).length ≤ k := by
  simp only [lastN, List.length_drop]
  omega

theorem dequePush_eq_lastN (k : Nat) (r : List α) (x : α) :
    dequePush k r x = lastN (r ++ [x]) k := by
  simp [dequePush, lastN]

theorem dequePush_length_le (k : Nat) (r : List α) (x : α) :
    (dequePush k r x).length ≤ k := by
  simp only [dequePush, List.length_drop, List.length_append, List.length_cons,
    List.length_nil]
  omega

theorem lastN_lastN_append (a b : List α) (k : Nat) :
    lastN (lastN a k ++ b) k = lastN (a ++ b) k := by
  by_cases h : k ≤ a.length
  · unfold lastN
    have h1 : a.drop (a.length - k) ++ b = (a ++ b).drop (a.length - k) :=
      (List.drop_append_of_le_length (by omega)).symm
    rw [h1, List.drop_drop]
    congr 1
    simp only [List.length_drop, List.length_append]
    omega
  · rw [lastN_of_length_le a k (by omega)]

theorem lastN_append_of_length (r xs : List α) (k : Nat) (h : xs.length = k) :
    lastN (r ++ xs) k = xs := by
  unfold lastN
  rw [List.length_append, h]
  have h2 : r.length + k - k = r.length := by omega
  rw [h2]
  exact List.drop_left r xs

theorem dequePushAll_eq_lastN (k : Nat) (xs : List α) :
    ∀ r : List α, r.length ≤ k → dequePushAll k r xs = lastN (r ++ xs) k := by
  induction xs with
  | nil =>
      intro r hr
      rw [List.append_nil, lastN_of_length_le r k hr]
      rfl
  | cons x xs ih =>
      intro r hr
      simp only [dequePushAll, List.foldl_cons]
      calc List.foldl (dequePush k) (dequePush k r x) xs
          = lastN (dequePush k r x ++ xs) k := ih _ (dequePush_length_le k r x)
        _ = lastN (lastN (r ++ [x]) k ++ xs) k := by rw [dequePush_eq_lastN]
        _ = lastN ((r ++ [x]) ++ xs) k := lastN_lastN_append _ _ _
        _ = lastN (r ++ x :: xs) k := by simp

/-- Every branch of one generator tick keeps the stream parameters and
mutates the table only through the one `defaultdict` lookup. -/
theorem genTick_state_eq (st : GenState α) (a b c : Nat) (t : TickResult α)
    (h : genTick st a b c = some t) :
    t.state.freq = (freqGetDefault st.freq st.recent).2 ∧
    t.state.known = st.known ∧ t.state.k = st.k ∧ t.state.mixup = st.mixup ∧
    t.state.i = st.i := by
  unfold genTick at h
  repeat' split at h
  all_goals first
    | (injection h with h2
       subst h2
       exact ⟨rfl, rfl, rfl, rfl, rfl⟩)
    | injection h

/-! ### Claim C1 -/

/-- C1 (count conservation): in the table built by `calculate_frequencies`
from any training sequence with any order `k`, for every context `c` the
sum of its successor counts equals the number of positions `i` at which
`c` occurs in the sequence as the length-`k` block `seq[i..i+k)`
immediately followed by one more element, and each individual count
`table[c][s]` equals the number of length-`(k+1)` windows whose first `k`
elements are `c` and whose last element is `s`. -/
theorem claim_C1_count_conservation (seq : List α) (k : Nat) (c : List α) (s : α) :
    counterTotal (freqLookup (calculate_frequencies seq k) c)
      = (List.range (seq.length - k)).countP (fun i => decide ((seq.drop i).take k = c))
    ∧ freqGet (calculate_frequencies seq k) c s
      = (List.range (seq.length - k)).countP
          (fun i => decide ((seq.drop i).take k = c ∧ (seq.drop (i + k)).head? = some s)) := by
  have hgb : group_by_n seq (k + 1) =
      (List.range (seq.length - k)).map (fun i => (seq.drop i).take (k + 1)) := by
    rw [group_by_n, if_neg (Nat.succ_ne_zero k)]
    have hr : seq.length + 1 - (k + 1) = seq.length - k := by omega
    rw [hr]
  constructor
  · rw [calculate_frequencies, foldl_calcStep_total, hgb, List.countP_map]
    have h0 : counterTotal (freqLookup ([] : Freq α) c) = 0 := rfl
    rw [h0, Nat.zero_add]
    apply List.countP_congr
    intro i hi
    have hik : i < seq.length - k := List.mem_range.mp hi
    have hk : k < (seq.drop i).length := by
      rw [List.length_drop]; omega
    have hne : (seq.drop i).take (k + 1) ≠ [] := by
      rw [← List.length_pos, List.length_take, List.length_drop]
      omega
    simp [Function.comp, take_succ_dropLast _ _ hk, hne]
  · rw [calculate_frequencies, foldl_calcStep_get, hgb, List.countP_map]
    have h0 : freqGet ([] : Freq α) c s = 0 := rfl
    rw [h0, Nat.zero_add]
    apply List.countP_congr
    intro i hi
    have hik : i < seq.length - k := List.mem_range.mp hi
    have hk : k < (seq.drop i).length := by
      rw [List.length_drop]; omega
    simp [Function.comp, take_succ_dropLast _ _ hk, take_succ_getLast? _ _ hk,
      List.getElem?_drop, drop_head?_eq]

/-! ### Claim C8 -/

/-- C8: building from a sequence with fewer than `k + 1` elements
(including the empty sequence) returns normally, and the resulting table
contains zero contexts. -/
theorem claim_C8_short_input_empty_table (seq : List α) (k : Nat)
    (h : seq.length < k + 1) : calculate_frequencies seq k = [] := by
  rw [calculate_frequencies, group_by_n, if_neg (Nat.succ_ne_zero k)]
  have hr : seq.length + 1 - (k + 1) = 0 := by omega
  rw [hr]
  rfl

/-- Witness for C8 at the concrete input `seq = [0]`, `k = 1`. -/
theorem claim_C8_witness :
    ([0] : List Nat).length < 1 + 1 ∧ calculate_frequencies ([0] : List Nat) 1 = [] :=
  ⟨by decide, claim_C8_short_input_empty_table [0] 1 (by decide)⟩

/-! ### Claim C3 -/

/-- C3: on a table with zero contexts, the first pull from the generator
fails with the empty-model error (the spec's `EmptyModelError`; concretely
the `IndexError` from `random.choice` on the empty known-context list) and
no symbol is emitted before the error. -/
theorem claim_C3_empty_model_error (k : Nat) (mixup : Option Nat) (seedIdx : Nat) :
    genStart ([] : Freq α) k mixup seedIdx = Except.error GenError.emptyModel := rfl

/-! ### Claims C2 and C7 (predictor) and C10 (tie-break) -/

/-- C2, amended: for every history and `k` such that the lookup context
`tuple(history[-k:])` (the last `k` elements when `k ≥ 1`, the whole
history when `k = 0`, by Python slicing) has at least one recorded
successor in the table built from the history, `predict` returns a
successor of that context with maximal count. -/
theorem claim_C2_predict_argmax (history : List α) (k ridx : Nat)
    (hne : freqLookup (calculate_frequencies history k) (pySliceLast history k) ≠ []) :
    ∃ s n, (predict_from_history history k ridx).1 = some s ∧
      (s, n) ∈ freqLookup (calculate_frequencies history k) (pySliceLast history k) ∧
      ∀ r ∈ freqLookup (calculate_frequencies history k) (pySliceLast history k),
        r.2 ≤ n := by
  rcases hcnt : freqLookup (calculate_frequencies history k) (pySliceLast history k) with
    _ | ⟨p, rest⟩
  · exact absurd hcnt hne
  · obtain ⟨pre, post, heq, hpre, hpost⟩ := pyMaxFold_first rest p
    refine ⟨(rest.foldl pyMaxStep p).1, (rest.foldl pyMaxStep p).2, ?_, ?_, ?_⟩
    · unfold predict_from_history
      rw [predict_fst, hcnt]
    · rw [heq]
      simp
    · intro r hr
      rw [heq] at hr
      rcases List.mem_append.mp hr with hr | hr
      · exact le_of_lt (hpre r hr)
      · rcases List.mem_cons.mp hr with hr | hr
        · subst hr; exact le_refl _
        · exact hpost r hr

/-- Witness for C2 at the spec's concrete scenario
`predict([A, B, A, B, A], k = 1)` with `A = 0`, `B = 1`: the context is
`[0]`, its successor counts are `{1 : 2}`, and the prediction is `1` (B). -/
theorem claim_C2_witness :
    (freqLookup (calculate_frequencies ([0, 1, 0, 1, 0] : List Nat) 1)
        (pySliceLast [0, 1, 0, 1, 0] 1) ≠ []) ∧
    (∃ s n, (predict_from_history ([0, 1, 0, 1, 0] : List Nat) 1 0).1 = some s ∧
      (s, n) ∈ freqLookup (calculate_frequencies ([0, 1, 0, 1, 0] : List Nat) 1)
          (pySliceLast [0, 1, 0, 1, 0] 1) ∧
      ∀ r ∈ freqLookup (calculate_frequencies ([0, 1, 0, 1, 0] : List Nat) 1)
          (pySliceLast [0, 1, 0, 1, 0] 1), r.2 ≤ n) ∧
    (predict_from_history ([0, 1, 0, 1, 0] : List Nat) 1 0).1 = some 1 :=
  ⟨by decide, claim_C2_predict_argmax [0, 1, 0, 1, 0] 1 0 (by decide), by decide⟩

/-- Counterexample to C2 as stated, at `k = 0`: for `history = [0, 0, 1]`
the context formed from the last 0 elements of the history is `[]`, whose
successor counts in the built table are `{0 : 2, 1 : 1}` — so the claim
requires the prediction `0`.  But Python's `history[-0:]` is the WHOLE
history, `[0, 0, 1]` is not a key of the table, and `predict` falls back
to a random element of the whole history: with random index 2 it returns
`1`, a successor of the claimed context whose count 1 is NOT maximal. -/
theorem claim_C2_counterexample :
    (predict_from_history ([0, 0, 1] : List Nat) 0 2).1 = some 1 ∧
    lastN ([0, 0, 1] : List Nat) 0 = [] ∧
    counterGet (freqLookup (calculate_frequencies ([0, 0, 1] : List Nat) 0) []) 1 = 1 ∧
    counterGet (freqLookup (calculate_frequencies ([0, 0, 1] : List Nat) 0) []) 0 = 2 := by
  decide

/-- C7, amended: for every NON-EMPTY history and every `k` such that the
lookup context `tuple(history[-k:])` has no recorded successors in the
table built from the history, `predict` returns normally some element of
that recency window (the one at the injected random position). -/
theorem claim_C7_fallback_no_crash (history : List α) (k ridx : Nat)
    (hhist : history ≠ [])
    (habs : freqLookup (calculate_frequencies history k) (pySliceLast history k) = []) :
    ∃ s, (predict_from_history history k ridx).1 = some s ∧
      s ∈ pySliceLast history k := by
  obtain ⟨s, hs, hmem⟩ :=
    pyChoice_mem (pySliceLast history k) ridx (pySliceLast_ne_nil history k hhist)
  refine ⟨s, ?_, hmem⟩
  unfold predict_from_history
  rw [predict_fst, habs]
  simpa using hs

/-- Witness for C7 at `history = [0, 1]`, `k = 5`: the window `[0, 1]` is
not a context of the (empty) table, and the fallback returns one of its
elements. -/
theorem claim_C7_witness :
    (([0, 1] : List Nat) ≠ []) ∧
    (freqLookup (calculate_frequencies ([0, 1] : List Nat) 5)
        (pySliceLast [0, 1] 5) = []) ∧
    (∃ s, (predict_from_history ([0, 1] : List Nat) 5 1).1 = some s ∧
      s ∈ pySliceLast ([0, 1] : List Nat) 5) :=
  ⟨by decide, by decide, claim_C7_fallback_no_crash [0, 1] 5 1 (by decide) (by decide)⟩

/-- Counterexample to C7 as stated: on the EMPTY history (whose last-`k`
context `[]` indeed has no recorded successors) the fallback calls
`random.choice` on an empty window, which raises `IndexError` — modelled
as `none` — so `predict` does not return an element; it raises. -/
theorem claim_C7_counterexample :
    (predict_from_history ([] : List Nat) 1 0).1 = none ∧
    freqLookup (calculate_frequencies ([] : List Nat) 1) (pySliceLast [] 1) = [] := by
  decide

/-- C10 (tie-break): on any context of a table built by
`calculate_frequencies` whose successor counter is non-empty, `predict`
returns the successor at a position of the counter such that every
earlier-inserted successor has a strictly smaller count and every
later-inserted successor has a count at most as large — i.e. the
earliest-inserted successor among those tied for the maximal count.
(Insertion order of the counter is the order in which successors were
first recorded while building, since `counterIncr` appends a new key at
the end and bumps an existing key in place.) -/
theorem claim_C10_tie_break_first_recorded (history : List α) (k ridx : Nat)
    (rs : List α)
    (hne : freqLookup (calculate_frequencies history k) rs ≠ []) :
    ∃ x n pre post,
      (predict (calculate_frequencies history k) rs ridx).1 = some x ∧
      freqLookup (calculate_frequencies history k) rs = pre ++ (x, n) :: post ∧
      (∀ r ∈ pre, r.2 < n) ∧ ∀ r ∈ post, r.2 ≤ n := by
  rcases hcnt : freqLookup (calculate_frequencies history k) rs with _ | ⟨p, rest⟩
  · exact absurd hcnt hne
  · obtain ⟨pre, post, heq, hpre, hpost⟩ := pyMaxFold_first rest p
    refine ⟨(rest.foldl pyMaxStep p).1, (rest.foldl pyMaxStep p).2, pre, post, ?_, ?_,
      hpre, hpost⟩
    · rw [predict_fst, hcnt]
    · simpa using heq

/-- Witness for C10 at `history = [0, 1, 0, 2, 0]`, `k = 1`, context
`[0]`: successors `1` and `2` are tied with count 1 each, and `predict`
returns `1`, the one first recorded for that context. -/
theorem claim_C10_witness :
    (freqLookup (calculate_frequencies ([0, 1, 0, 2, 0] : List Nat) 1) [0] ≠ []) ∧
    (∃ x n pre post,
      (predict (calculate_frequencies ([0, 1, 0, 2, 0] : List Nat) 1) [0] 0).1 = some x ∧
      freqLookup (calculate_frequencies ([0, 1, 0, 2, 0] : List Nat) 1) [0] =
        pre ++ (x, n) :: post ∧
      (∀ r ∈ pre, r.2 < n) ∧ ∀ r ∈ post, r.2 ≤ n) ∧
    (predict (calculate_frequencies ([0, 1, 0, 2, 0] : List Nat) 1) [0] 0).1 = some 1 ∧
    freqLookup (calculate_frequencies ([0, 1, 0, 2, 0] : List Nat) 1) [0] =
      [(1, 1), (2, 1)] :=
  ⟨by decide, claim_C10_tie_break_first_recorded [0, 1, 0, 2, 0] 1 0 [0] (by decide),
    by decide, by decide⟩

/-! ### Claims C4, C5, C6, C9 (generator) -/

theorem seedPick_eq_pyChoice (known : List (List α)) (idx : Nat) :
    seedPick known idx = pyChoice known idx := rfl

theorem freqIncr_keys_sub (f : Freq α) (ctx : List α) (s : α) (c : List α)
    (hc : c ∈ (freqIncr f ctx s).map Prod.fst) : c ∈ f.map Prod.fst ∨ c = ctx := by
  induction f with
  | nil =>
      simp [freqIncr] at hc
      exact Or.inr hc
  | cons p rest ih =>
      by_cases h : p.1 = ctx
      · simp only [freqIncr, if_pos h, List.map_cons, List.mem_cons] at hc
        rcases hc with hc | hc
        · exact Or.inl (by simp [hc])
        · exact Or.inl (by simp [hc])
      · simp only [freqIncr, if_neg h, List.map_cons, List.mem_cons] at hc
        rcases hc with hc | hc
        · exact Or.inl (by simp [hc])
        · rcases ih hc with h2 | h2
          · exact Or.inl (by simp [h2])
          · exact Or.inr h2

theorem foldl_calcStep_keys (ws : List (List α)) (f0 : Freq α) (c : List α)
    (hc : c ∈ ((ws.foldl calcStep f0).map Prod.fst)) :
    c ∈ f0.map Prod.fst ∨ ∃ w ∈ ws, c = w.dropLast := by
  induction ws generalizing f0 with
  | nil =>
      simp only [List.foldl_nil] at hc
      exact Or.inl hc
  | cons w ws ih =>
      rw [List.foldl_cons] at hc
      rcases ih (calcStep f0 w) hc with h | ⟨w2, hw2, hcw⟩
      · unfold calcStep at h
        rcases hlast : w.getLast? with _ | s
        · rw [hlast] at h
          exact Or.inl h
        · rw [hlast] at h
          rcases freqIncr_keys_sub f0 w.dropLast s c h with h2 | h2
          · exact Or.inl h2
          · exact Or.inr ⟨w, by simp, h2⟩
      · exact Or.inr ⟨w2, by simp [hw2], hcw⟩

/-- Every context key of a table built with order `k` is a `k`-tuple. -/
theorem calculate_frequencies_key_length (seq : List α) (k : Nat) (c : List α)
    (hc : c ∈ (calculate_frequencies seq k).map Prod.fst) : c.length = k := by
  rcases foldl_calcStep_keys (group_by_n seq (k + 1)) [] c hc with h | ⟨w, hw, hcw⟩
  · simp at h
  · have hwlen : w.length = k + 1 := by
      rw [group_by_n, if_neg (Nat.succ_ne_zero k)] at hw
      rcases List.mem_map.mp hw with ⟨i, hi, hweq⟩
      have hir := List.mem_range.mp hi
      rw [← hweq, List.length_take, List.length_drop]
      omega
    rw [hcw, List.length_dropLast, hwlen]
    rfl

/-- The initial seed of a stream establishes the buffer invariant: the
`recent` deque holds the trailing `k` symbols of what was emitted. -/
theorem genStart_state (f : Freq α) (k : Nat) (mixup : Option Nat) (seedIdx : Nat)
    (ctx : List α) (st0 : GenState α)
    (h : genStart f k mixup seedIdx = Except.ok (ctx, st0)) :
    st0.recent = lastN ctx k ∧ st0.freq = f ∧ st0.known = f.map Prod.fst ∧
    st0.k = k ∧ st0.mixup = mixup ∧ st0.i = 0 := by
  unfold genStart at h
  split at h
  · exact Except.noConfusion h
  · injection h with h2
    injection h2 with h3 h4
    subst h4
    refine ⟨?_, rfl, rfl, rfl, rfl, rfl⟩
    rw [← h3]
    have h0 : ([] : List α).length ≤ k := by simp
    show dequePushAll k [] _ = lastN _ k
    rw [dequePushAll_eq_lastN k _ [] h0, List.nil_append]

/-- C4: the code contradicts the claimed mixup schedule.  Concrete run:
the table is built from `[0, 1, 2, 0]` with `k = 1` and
`mixup_period = 10`; the initial seed emits one symbol (`0`), so exactly
1 symbol has been emitted — and 1 is not a positive multiple of 10.  Yet
the very first loop tick performs a forced re-seed (here emitting `2`)
because the loop counter `i` is never incremented (`0 % 10 == 0` holds
forever), and it then ALSO performs the normal weighted step (emitting
`1`, sampled from the stale pre-reseed context) because the mixup branch
does not skip the step.  This contradicts the code's own docstring
("the period after which a random transition should occur"). -/
theorem claim_C4_mixup_fires_every_tick :
    calculate_frequencies ([0, 1, 2, 0] : List Nat) 1 =
      [([0], [(1, 1)]), ([1], [(2, 1)]), ([2], [(0, 1)])] ∧
    genStart (calculate_frequencies ([0, 1, 2, 0] : List Nat) 1) 1 (some 10) 0 =
      Except.ok ([0],
        ⟨[([0], [(1, 1)]), ([1], [(2, 1)]), ([2], [(0, 1)])], [[0], [1], [2]], [0], 1,
          some 10, 0⟩) ∧
    (genTick (⟨[([0], [(1, 1)]), ([1], [(2, 1)]), ([2], [(0, 1)])], [[0], [1], [2]],
        [0], 1, some 10, 0⟩ : GenState Nat) 2 0 0).map
      (fun t => (t.preSample, t.sampled)) = some ([2], [1]) ∧
    (1 : Nat) % 10 ≠ 0 :=
  ⟨rfl, rfl, rfl, by decide⟩

/-- C5, amended (context continuity holds when `mixupPeriod` is unset):
for a stream state whose buffer holds the trailing `k` symbols emitted so
far (`e`), one tick with `mixup = none` samples — whenever it samples —
from exactly the context `lastN e k`, emits nothing before the sample,
and re-establishes the buffer invariant for the emitted output.  (With a
mixup period set this FAILS: see the counterexample, where the re-seed
emits between the context lookup and the sample.) -/
theorem claim_C5_context_continuity (st : GenState α) (e : List α)
    (mixIdx sIdx recIdx : Nat) (t : TickResult α)
    (hmix : st.mixup = none)
    (hrec : st.recent = lastN e st.k)
    (htick : genTick st mixIdx sIdx recIdx = some t) :
    (∀ c, t.sampleCtx = some c → c = lastN e st.k) ∧
    t.preSample = [] ∧
    t.state.recent = lastN (e ++ t.out) st.k ∧
    t.state.mixup = none ∧ t.state.k = st.k := by
  have hmf : mixupFires st.mixup st.i = false := by rw [hmix]; rfl
  unfold genTick at htick
  rw [hmf] at htick
  simp only [Bool.false_eq_true, if_false] at htick
  rcases hpc : pyChoice ((freqGetDefault st.freq st.recent).1.map Prod.fst) sIdx with
    _ | s
  · rw [hpc] at htick
    rcases hsp : seedPick st.known recIdx with _ | ctx
    · rw [hsp] at htick
      exact Option.noConfusion htick
    · rw [hsp] at htick
      injection htick with h2
      subst h2
      refine ⟨?_, rfl, ?_, hmix, rfl⟩
      · intro c hc
        exact Option.noConfusion hc
      · have hlen : st.recent.length ≤ st.k := by
          rw [hrec]; exact lastN_length_le e st.k
        simp only [TickResult.out, List.nil_append]
        rw [dequePushAll_eq_lastN st.k ctx st.recent hlen, hrec, lastN_lastN_append]
  · rw [hpc] at htick
    injection htick with h2
    subst h2
    refine ⟨?_, rfl, ?_, hmix, rfl⟩
    · intro c hc
      injection hc with hc2
      subst hc2
      exact hrec
    · simp only [TickResult.out, List.nil_append, List.append_nil]
      rw [dequePush_eq_lastN, hrec, lastN_lastN_append]

/-- Witness for C5 at a concrete one-context table (`[0] → {1 : 1}`,
`k = 1`, no mixup), emitted-so-far `[0]`: the tick samples from context
`[0] = lastN [0] 1` and leaves the buffer holding the trailing symbol. -/
theorem claim_C5_witness :
    ((⟨[([0], [(1, 1)])], [[0]], [0], 1, none, 0⟩ : GenState Nat).mixup = none) ∧
    ((⟨[([0], [(1, 1)])], [[0]], [0], 1, none, 0⟩ : GenState Nat).recent =
      lastN [0] 1) ∧
    (genTick (⟨[([0], [(1, 1)])], [[0]], [0], 1, none, 0⟩ : GenState Nat) 0 0 0 =
      some ⟨[], some [0], [1], [], ⟨[([0], [(1, 1)])], [[0]], [1], 1, none, 0⟩⟩) ∧
    ((∀ c, (⟨[], some [0], [1], [],
        ⟨[([0], [(1, 1)])], [[0]], [1], 1, none, 0⟩⟩ : TickResult Nat).sampleCtx =
          some c → c = lastN [0] 1) ∧
      (⟨[], some [0], [1], [],
        ⟨[([0], [(1, 1)])], [[0]], [1], 1, none, 0⟩⟩ : TickResult Nat).preSample = [] ∧
      (⟨[], some [0], [1], [],
        ⟨[([0], [(1, 1)])], [[0]], [1], 1, none, 0⟩⟩ :
          TickResult Nat).state.recent =
        lastN ([0] ++ (⟨[], some [0], [1], [],
          ⟨[([0], [(1, 1)])], [[0]], [1], 1, none, 0⟩⟩ : TickResult Nat).out) 1 ∧
      (⟨[], some [0], [1], [],
        ⟨[([0], [(1, 1)])], [[0]], [1], 1, none, 0⟩⟩ :
          TickResult Nat).state.mixup = none ∧
      (⟨[], some [0], [1], [],
        ⟨[([0], [(1, 1)])], [[0]], [1], 1, none, 0⟩⟩ : TickResult Nat).state.k = 1) :=
  ⟨rfl, rfl, rfl,
    claim_C5_context_continuity
      (⟨[([0], [(1, 1)])], [[0]], [0], 1, none, 0⟩ : GenState Nat) [0] 0 0 0
      ⟨[], some [0], [1], [], ⟨[([0], [(1, 1)])], [[0]], [1], 1, none, 0⟩⟩
      rfl rfl rfl⟩

/-- Counterexample to C5 as stated (over ANY mixup setting): table built
from `[0, 1, 2]` with `k = 1` and `mixup_period = 1`.  The seed emits
`0`; on the first tick the mixup re-seed emits `1` (`preSample = [1]`),
so at the moment the successor is sampled the trailing 1 emitted symbol
is `[1]` — but the sample is drawn from the context looked up at tick
start, `sampleCtx = some [0] ≠ some [1]`. -/
theorem claim_C5_counterexample :
    calculate_frequencies ([0, 1, 2] : List Nat) 1 =
      [([0], [(1, 1)]), ([1], [(2, 1)])] ∧
    genStart ([([0], [(1, 1)]), ([1], [(2, 1)])] : Freq Nat) 1 (some 1) 0 =
      Except.ok ([0],
        ⟨[([0], [(1, 1)]), ([1], [(2, 1)])], [[0], [1]], [0], 1, some 1, 0⟩) ∧
    (genTick (⟨[([0], [(1, 1)]), ([1], [(2, 1)])], [[0], [1]], [0], 1, some 1, 0⟩ :
        GenState Nat) 1 0 0).map (fun t => (t.sampleCtx, t.preSample, t.sampled)) =
      some (some [0], [1], [1]) ∧
    lastN ([0] ++ [1]) 1 = [1] ∧ ([0] : List Nat) ≠ [1] :=
  ⟨rfl, rfl, rfl, rfl, by decide⟩

/-- C6, amended: no successor count of any context is ever changed by
`predict` calls or generator ticks — `freqGet` is invariant — but the SET
of context keys is not: a lookup of an absent context inserts that key
with an empty counter (see the counterexample). -/
theorem claim_C6_counts_never_change :
    (∀ (f : Freq α) (rs : List α) (ridx : Nat) (c : List α) (s : α),
      freqGet (predict f rs ridx).2 c s = freqGet f c s) ∧
    (∀ (st : GenState α) (mixIdx sIdx recIdx : Nat) (t : TickResult α),
      genTick st mixIdx sIdx recIdx = some t →
      ∀ (c : List α) (s : α), freqGet t.state.freq c s = freqGet st.freq c s) := by
  constructor
  · intro f rs ridx c s
    rw [predict_snd, freqGet_getDefault_snd]
  · intro st mixIdx sIdx recIdx t htick c s
    rw [(genTick_state_eq st mixIdx sIdx recIdx t htick).1, freqGet_getDefault_snd]

/-- Witness for C6: a `predict` call on an absent context and a generator
tick that wanders into an unseen context both leave every count intact. -/
theorem claim_C6_witness :
    (freqGet (predict ([([0], [(1, 1)])] : Freq Nat) [2] 0).2 [0] 1 =
      freqGet ([([0], [(1, 1)])] : Freq Nat) [0] 1) ∧
    (genTick (⟨[([0], [(1, 1)])], [[0]], [1], 1, none, 0⟩ : GenState Nat) 0 0 0 =
      some ⟨[], none, [], [0],
        ⟨[([0], [(1, 1)]), ([1], [])], [[0]], [0], 1, none, 0⟩⟩) ∧
    (freqGet ([([0], [(1, 1)]), ([1], [])] : Freq Nat) [0] 1 =
      freqGet ([([0], [(1, 1)])] : Freq Nat) [0] 1) :=
  ⟨claim_C6_counts_never_change.1 [([0], [(1, 1)])] [2] 0 [0] 1, rfl,
    claim_C6_counts_never_change.2
      (⟨[([0], [(1, 1)])], [[0]], [1], 1, none, 0⟩ : GenState Nat) 0 0 0
      ⟨[], none, [], [0], ⟨[([0], [(1, 1)]), ([1], [])], [[0]], [0], 1, none, 0⟩⟩
      (by rfl) [0] 1⟩

/-- Counterexample to C6 as stated: the table is a `defaultdict`, so a
`predict` call that looks up the absent context `[2]` INSERTS it with an
empty counter — the set of context keys grows from `{[0]}` to
`{[0], [2]}`. -/
theorem claim_C6_counterexample :
    (predict ([([0], [(1, 1)])] : Freq Nat) [2] 0).2 = [([0], [(1, 1)]), ([2], [])] ∧
    (predict ([([0], [(1, 1)])] : Freq Nat) [2] 0).2.map Prod.fst = [[0], [2]] ∧
    ([([0], [(1, 1)])] : Freq Nat).map Prod.fst = [[0]] := by
  decide

/-- C9 (seed coverage): every SEED step — initial, mixup or recovery, all
of which pick via `seedPick` and push via `dequePushAll` — on a table
with at least one context (all of whose contexts have length `k`, as
`calculate_frequencies` guarantees) emits exactly the `k` symbols of one
of the known contexts, and immediately afterwards the recent-context
buffer (of length at most `k`) equals that chosen context. -/
theorem claim_C9_seed_coverage (seq : List α) (k idx : Nat) (r : List α)
    (hne : (calculate_frequencies seq k).map Prod.fst ≠ [])
    (hr : r.length ≤ k) :
    ∃ ctx, seedPick ((calculate_frequencies seq k).map Prod.fst) idx = some ctx ∧
      ctx ∈ (calculate_frequencies seq k).map Prod.fst ∧ ctx.length = k ∧
      dequePushAll k r ctx = ctx := by
  obtain ⟨ctx, hpick, hmem⟩ :=
    pyChoice_mem ((calculate_frequencies seq k).map Prod.fst) idx hne
  rw [seedPick_eq_pyChoice]
  have hlen : ctx.length = k := calculate_frequencies_key_length seq k ctx hmem
  refine ⟨ctx, hpick, hmem, hlen, ?_⟩
  rw [dequePushAll_eq_lastN k ctx r hr]
  exact lastN_append_of_length r ctx k hlen

/-- Witness for C9 on the table built from `[0, 1, 2]` with `k = 1`
(known contexts `[[0], [1]]`), buffer `[5]`, random index 3: the seed
picks `[1]`, emits its 1 symbol, and the buffer ends as `[1]`. -/
theorem claim_C9_witness :
    ((calculate_frequencies ([0, 1, 2] : List Nat) 1).map Prod.fst ≠ []) ∧
    (([5] : List Nat).length ≤ 1) ∧
    (∃ ctx,
      seedPick ((calculate_frequencies ([0, 1, 2] : List Nat) 1).map Prod.fst) 3 =
        some ctx ∧
      ctx ∈ (calculate_frequencies ([0, 1, 2] : List Nat) 1).map Prod.fst ∧
      ctx.length = 1 ∧ dequePushAll 1 [5] ctx = ctx) ∧
    seedPick ((calculate_frequencies ([0, 1, 2] : List Nat) 1).map Prod.fst) 3 =
      some [1] ∧
    dequePushAll 1 [5] [1] = [1] :=
  ⟨by decide, by decide,
    claim_C9_seed_coverage [0, 1, 2] 1 3 [5] (by decide) (by decide),
    rfl, rfl⟩

end Markov
